import Mathlib

/-!
Shallow embedding of zipline's adjustment-resolution core
(`lib/_adjustments.pyx`) and of the `AdjustedArrayWindow` engine.

Modelling conventions:
* 64-bit float values (`ratio`, correction values) are modelled by `ℚ`;
  IEEE rounding is not modelled.  Division by zero raises
  `ZeroDivisionError` in the source (Cython default `cdivision=False`),
  modelled by `Except`.
* Epoch-second dates and sids are modelled by `Int` (the source converts
  the caller's `DatetimeIndex` to an `int64` seconds array
  `_dates_seconds` and compares `effective_date` integers against it; we
  take the seconds array directly as the date axis).
* sqlite tables are modelled as lists of rows in table order; a query
  result is the filter of the table by the `WHERE` clause.
* Python dicts keyed by ints are modelled as association lists where a
  later binding overwrites an earlier one (lookup finds the last
  binding).
-/

namespace Zipline

/-- A row of one of the three adjustment tables: `(sid, ratio, effective_date)`. -/
structure AdjRecord where
  sid : Int
  ratio : ℚ
  effDate : Int
  deriving Repr, DecidableEq

/-- The adjustments database: the three tables read by the loader. -/
structure AdjustmentDB where
  splits : List AdjRecord
  mergers : List AdjRecord
  dividends : List AdjRecord
  deriving Repr, DecidableEq

/-- `zipline.lib.adjustment.Float64Multiply(first_row, last_row, first_col, last_col, value)`:
multiply every cell of the rectangle `[first_row, last_row] × [first_col, last_col]` by `value`. -/
structure Float64Multiply where
  first_row : Nat
  last_row : Nat
  first_col : Nat
  last_col : Nat
  value : ℚ
  deriving Repr, DecidableEq

/-- The `dict[int -> list[Float64Multiply]]` schedules, as an association
list with unique keys in insertion order. -/
abbrev Schedule := List (Nat × List Float64Multiply)

/-- `d.setdefault(k, []).append(adj)` on a schedule dict. -/
def scheduleAppend (sched : Schedule) (k : Nat) (adj : Float64Multiply) : Schedule :=
  if sched.any (fun p => p.1 == k) then
    sched.map (fun p => if p.1 == k then (p.1, p.2 ++ [adj]) else p)
  else
    sched ++ [(k, [adj])]

/-- Bucket of a schedule at key `k` (empty when the key is absent). -/
def scheduleGet (sched : Schedule) (k : Nat) : List Float64Multiply :=
  match sched.find? (fun p => p.1 == k) with
  | some p => p.2
  | none => []

/-- `numpy.searchsorted(axis, x, side='right')` on a sorted axis: the
number of entries `≤ x`, i.e. the index of the first entry strictly
greater than `x`. -/
def searchsortedRight (xs : List Int) (x : Int) : Nat :=
  xs.countP (fun d => decide (d ≤ x))

/-- The pre-populated date index cache: `for i, dt in enumerate(_dates_seconds): date_ixs[dt] = i`. -/
def buildDateCache (dates : List Int) : List (Int × Nat) :=
  dates.enum.map (fun p => (p.2, p.1))

/-- Python dict lookup on an assignment list: the LAST assignment to a key wins. -/
def dictFind (cache : List (Int × Nat)) (k : Int) : Option Nat :=
  (cache.reverse.find? (fun p => p.1 == k)).map (fun p => p.2)

/-- `_lookup_dt(date_ixs, dt, _dates_seconds)` as called by
`load_adjustments_from_sqlite`, where `date_ixs` is the pre-populated
cache: a cache hit (among the pre-populated exact axis dates, or a
previously computed entry for the same `dt`, which is identical) returns
the cached index, otherwise `searchsorted(..., side='right')` is used.
The mutable memoization only ever stores the value this pure function
returns, so the function of `(dates, dt)` is the faithful abstraction. -/
def lookup_dt (dates : List Int) (dt : Int) : Nat :=
  match dictFind (buildDateCache dates) dt with
  | some i => i
  | none => searchsortedRight dates dt

/-- `assets.get_loc(sid)` on a unique `Int64Index`: position of `sid`,
`KeyError` (modelled by `none`) when absent. -/
def get_loc (assets : List Int) (sid : Int) : Option Nat :=
  assets.findIdx? (fun a => a == sid)

/-- `_get_sids_from_table`: the distinct sids having a row in `table`
with `effective_date` in `[s, e]` (inclusive).  Only membership in the
result is ever used. -/
def get_sids_from_table (table : List AdjRecord) (s e : Int) : List Int :=
  ((table.filter (fun r => decide (s ≤ r.effDate) && decide (r.effDate ≤ e))).map
    (fun r => r.sid)).dedup

/-- One execution of `ADJ_QUERY_TEMPLATE` bound to the sids of `chunk`:
rows of `table` with `sid IN chunk AND effective_date >= s AND effective_date <= e`,
in table order. -/
def adjQuery (table : List AdjRecord) (chunk : List Int) (s e : Int) : List AdjRecord :=
  table.filter (fun r => decide (r.sid ∈ chunk) && decide (s ≤ r.effDate) && decide (r.effDate ≤ e))

/-- The chunking loop of `_adjustments`: repeatedly slice off the first
`min(len(remaining), limit)` candidates.  The source's `limit` is the
imported constant `SQLITE_MAX_IN_STATEMENT`; a `limit` of `0` would not
terminate in the source, so we return `[]` there and state theorems for
`0 < limit` only. -/
def chunksOf (limit : Nat) : List Int → List (List Int)
  | [] => []
  | x :: xs =>
    if _h : limit = 0 then []
    else
      (x :: xs).take (min (x :: xs).length limit) ::
        chunksOf limit ((x :: xs).drop (min (x :: xs).length limit))
termination_by xs => xs.length
decreasing_by
  simp only [List.length_drop, List.length_cons]
  omega

/-- One category's chunked-fetch loop in `_adjustments`: filter the
assets to those with adjustments in range (`[str(a) for a in assets if a in sids]`,
with the injective `str` conversion elided), then issue one query per
chunk and concatenate the results in chunk order. -/
def fetchCategory (limit : Nat) (table : List AdjRecord) (sids : List Int)
    (s e : Int) (assets : List Int) : List AdjRecord :=
  ((chunksOf limit (assets.filter (fun a => decide (a ∈ sids)))).map
    (fun chunk => adjQuery table chunk s e)).flatten

/-- `_adjustments`: the three chunked fetches. -/
def adjustments_fetch (limit : Nat) (db : AdjustmentDB)
    (split_sids merger_sids dividend_sids : List Int)
    (s e : Int) (assets : List Int) :
    List AdjRecord × List AdjRecord × List AdjRecord :=
  (fetchCategory limit db.splits split_sids s e assets,
   fetchCategory limit db.mergers merger_sids s e assets,
   fetchCategory limit db.dividends dividend_sids s e assets)

/-- Errors `load_adjustments_from_sqlite` can raise. -/
inductive AdjErr where
  | invalidType (t : String)
  | indexError
  | keyError (sid : Int)
  | zeroDivision
  deriving Repr, DecidableEq

/-- Modelled from the spec: `SQLITE_MAX_VARIABLE_NUMBER`, imported by the
source from `zipline.assets.asset_writer` (a module not among the
provided sources), is the spec's "fixed system limit" on bound
parameters per query; sqlite's historical default is 999. -/
def SQLITE_MAX_IN_STATEMENT : Nat := 999

/-- The returned `dict`: key `price` / `volume` present iff requested. -/
structure LoadResult where
  price : Option Schedule
  volume : Option Schedule
  deriving Repr, DecidableEq

/-- Body of the loop `for sid, ratio, eff_date in splits` in
`load_adjustments_from_sqlite`: skip records before `start_date`,
resolve row and column, append the price multiplier `ratio` and the
volume multiplier `1.0 / ratio` (Cython raises `ZeroDivisionError` on a
zero divisor under the default `cdivision=False`). -/
def splitStep (shouldPrice shouldVolume : Bool) (dates assets : List Int) (start : Int)
    (st : Schedule × Schedule) (r : AdjRecord) : Except AdjErr (Schedule × Schedule) :=
  if r.effDate < start then .ok st
  else
    let date_loc := lookup_dt dates r.effDate
    match get_loc assets r.sid with
    | none => .error (.keyError r.sid)
    | some asset_ix =>
      let ps := if shouldPrice then
          scheduleAppend st.1 date_loc ⟨0, date_loc, asset_ix, asset_ix, r.ratio⟩
        else st.1
      if shouldVolume then
        if r.ratio = 0 then .error .zeroDivision
        else .ok (ps, scheduleAppend st.2 date_loc ⟨0, date_loc, asset_ix, asset_ix, 1 / r.ratio⟩)
      else .ok (ps, st.2)

/-- Body of the loop `for sid, ratio, eff_date in chain(mergers, dividends)`:
mergers and dividends append a price multiplier only. -/
def mergerDividendStep (dates assets : List Int) (start : Int)
    (ps : Schedule) (r : AdjRecord) : Except AdjErr Schedule :=
  if r.effDate < start then .ok ps
  else
    let date_loc := lookup_dt dates r.effDate
    match get_loc assets r.sid with
    | none => .error (.keyError r.sid)
    | some asset_ix => .ok (scheduleAppend ps date_loc ⟨0, date_loc, asset_ix, asset_ix, r.ratio⟩)

/-- A `for` loop over rows whose body may raise: stops at the first error. -/
def runLoop (f : σ → AdjRecord → Except AdjErr σ) : σ → List AdjRecord → Except AdjErr σ
  | s, [] => .ok s
  | s, r :: rest =>
    match f s r with
    | .error e => .error e
    | .ok s' => runLoop f s' rest

/-- The two schedule-building passes of `load_adjustments_from_sqlite`:
one pass over the split rows, then one pass over the concatenation of
merger and dividend rows. -/
def assemble (shouldPrice shouldVolume : Bool) (dates assets : List Int) (start : Int)
    (splitRows mergerDividendRows : List AdjRecord) :
    Except AdjErr (Schedule × Schedule) :=
  match runLoop (splitStep shouldPrice shouldVolume dates assets start) ([], []) splitRows with
  | .error e => .error e
  | .ok sv =>
    match runLoop (mergerDividendStep dates assets start) sv.1 mergerDividendRows with
    | .error e => .error e
    | .ok ps => .ok (ps, sv.2)

/-- The body of `load_adjustments_from_sqlite` once `adjustment_type` has
been validated and `start_date`/`end_date` extracted from the axis:
resolve sids per included category (mergers and dividends having been
forced off when price output is not requested), run the three chunked
fetches, and build the two schedules. -/
def loadValidated (db : AdjustmentDB) (dates assets : List Int)
    (should_include_splits should_include_mergers should_include_dividends : Bool)
    (shouldPrice shouldVolume : Bool) (start_date end_date : Int) :
    Except AdjErr LoadResult :=
  let split_sids := if should_include_splits then
      get_sids_from_table db.splits start_date end_date else []
  let merger_sids := if should_include_mergers && shouldPrice then
      get_sids_from_table db.mergers start_date end_date else []
  let dividend_sids := if should_include_dividends && shouldPrice then
      get_sids_from_table db.dividends start_date end_date else []
  let fetched := adjustments_fetch SQLITE_MAX_IN_STATEMENT db
    split_sids merger_sids dividend_sids start_date end_date assets
  match assemble shouldPrice shouldVolume dates assets start_date
      fetched.1 (fetched.2.1 ++ fetched.2.2) with
  | .error e => .error e
  | .ok (ps, vs) =>
    .ok ⟨if shouldPrice then some ps else none, if shouldVolume then some vs else none⟩

/-- `load_adjustments_from_sqlite(adjustments_db, dates, assets, ...)`.
`dates` is the axis as epoch seconds (`_dates_seconds`); `start_date`
and `end_date` are its first and last entries.  An empty axis raises
`IndexError` at `dates[0]` (after the `adjustment_type` validation,
which the source performs first). -/
def load_adjustments_from_sqlite (db : AdjustmentDB) (dates assets : List Int)
    (should_include_splits should_include_mergers should_include_dividends : Bool)
    (adjustment_type : String) : Except AdjErr LoadResult :=
  if adjustment_type == "price" || adjustment_type == "volume" || adjustment_type == "all" then
    match dates.head?, dates.getLast? with
    | some start_date, some end_date =>
      loadValidated db dates assets
        should_include_splits should_include_mergers should_include_dividends
        (adjustment_type == "all" || adjustment_type == "price")
        (adjustment_type == "all" || adjustment_type == "volume")
        start_date end_date
    | _, _ => .error .indexError
  else
    .error (.invalidType adjustment_type)

/-- Modelled from the spec: the generic `AdjustedArrayWindow` engine lives
in `_windowtemplate.pxi`, which is not among the provided sources (only
the three per-type specializations that `include` it are).  Following
§4.6/§3 of the spec, the state owns a 2-D baseline buffer, the row-keyed
correction schedule, the window length, the cursor of the last
materialized window (`none` before the first advance) and the cached
materialized view, which is always valid for the current cursor. -/
structure AdjustedArrayWindow where
  baseline : List (List ℚ)
  schedule : Schedule
  window_length : Nat
  cursor : Option Nat
  cached : List (List ℚ)
  deriving Repr, DecidableEq

/-- Modelled from the spec: §7's error taxonomy for window advancement —
`OrderingError` for a rewind, a lookup/bounds error for
`row - window_length + 1 < 0`. -/
inductive WindowErr where
  | ordering
  | bounds
  deriving Repr, DecidableEq

/-- Modelled from the spec: apply one `PendingCorrection` in place —
multiply every cell of the rectangle `[first_row, last_row] × [first_col, last_col]`
by `value` (§3, §4.6). -/
def applyCorrection (buf : List (List ℚ)) (adj : Float64Multiply) : List (List ℚ) :=
  buf.enum.map (fun p =>
    if adj.first_row ≤ p.1 ∧ p.1 ≤ adj.last_row then
      p.2.enum.map (fun q =>
        if adj.first_col ≤ q.1 ∧ q.1 ≤ adj.last_col then q.2 * adj.value else q.2)
    else p.2)

/-- Modelled from the spec: apply, in order, every pending correction of
the schedule buckets at the given row keys (§4.6 step for the keys in
`(previous_cursor, row]`). -/
def applyRows (sched : Schedule) (buf : List (List ℚ)) (rows : List Nat) : List (List ℚ) :=
  rows.foldl (fun b k => (scheduleGet sched k).foldl applyCorrection b) buf

/-- Modelled from the spec: the materialized window of length
`window_length` ending at `row`: rows `row + 1 - window_length` through
`row` of the buffer. -/
def windowView (buf : List (List ℚ)) (window_length row : Nat) : List (List ℚ) :=
  (buf.take (row + 1)).drop (row + 1 - window_length)

/-- Modelled from the spec: `AdjustedArrayWindow.advance_to(row)` (§4.6):
a repeated request at the current cursor returns the cached view with no
recomputation; a rewind fails with `OrderingError`; `row` with
`row - window_length + 1 < 0` fails with a bounds error; otherwise every
schedule bucket keyed in `(previous_cursor, row]` is applied to the
baseline in place, the window slides to end at `row`, and the view is
cached. -/
def advance_to (st : AdjustedArrayWindow) (row : Nat) :
    Except WindowErr (AdjustedArrayWindow × List (List ℚ)) :=
  match st.cursor with
  | some c =>
    if row < c then .error .ordering
    else if row = c then .ok (st, st.cached)
    else if row + 1 < st.window_length then .error .bounds
    else
      let buf := applyRows st.schedule st.baseline (List.range' (c + 1) (row - c))
      let v := windowView buf st.window_length row
      .ok ({ st with baseline := buf, cursor := some row, cached := v }, v)
  | none =>
    if row + 1 < st.window_length then .error .bounds
    else
      let buf := applyRows st.schedule st.baseline (List.range (row + 1))
      let v := windowView buf st.window_length row
      .ok ({ st with baseline := buf, cursor := some row, cached := v }, v)

/-- Well-formedness of a built schedule: every key is a row of the date
axis, and every correction in the bucket at key `k` covers exactly rows
`0 .. k` and one in-axis column. -/
def schedWellFormed (dates assets : List Int) (sched : Schedule) : Prop :=
  ∀ p ∈ sched, p.1 < dates.length ∧
    ∀ adj ∈ p.2, adj.first_row = 0 ∧ adj.last_row = p.1 ∧
      adj.first_col = adj.last_col ∧ adj.last_col < assets.length

/-- The region shape of every scheduled correction: rows `0` through the
scheduled row, a single column. -/
def schedRegions (sched : Schedule) : Prop :=
  ∀ p ∈ sched, ∀ adj ∈ p.2, adj.first_row = 0 ∧ adj.last_row = p.1 ∧
    adj.first_col = adj.last_col

/-- All row keys and correction indices of a schedule lie inside the
request axes. -/
def schedInBounds (dates assets : List Int) (sched : Schedule) : Prop :=
  ∀ p ∈ sched, p.1 < dates.length ∧
    ∀ adj ∈ p.2, adj.first_row < dates.length ∧ adj.last_row < dates.length ∧
      adj.first_col < assets.length ∧ adj.last_col < assets.length

/-- The database restricted to records with `effective_date ∈ [lo, hi]`. -/
def filterRange (db : AdjustmentDB) (lo hi : Int) : AdjustmentDB :=
  ⟨db.splits.filter (fun r => decide (lo ≤ r.effDate) && decide (r.effDate ≤ hi)),
   db.mergers.filter (fun r => decide (lo ≤ r.effDate) && decide (r.effDate ≤ hi)),
   db.dividends.filter (fun r => decide (lo ≤ r.effDate) && decide (r.effDate ≤ hi))⟩

theorem scenario_split_load :
    load_adjustments_from_sqlite ⟨[⟨101, 2, 86400⟩], [], []⟩ [0, 86400, 172800, 259200] [101]
      true true true "all" =
    .ok ⟨some [(1, [⟨0, 1, 0, 0, 2⟩])], some [(1, [⟨0, 1, 0, 0, 1 / 2⟩])]⟩ := by
  norm_num [load_adjustments_from_sqlite, loadValidated, assemble, runLoop, adjustments_fetch,
    fetchCategory,
    chunksOf, adjQuery, get_sids_from_table, splitStep, mergerDividendStep, lookup_dt, dictFind,
    buildDateCache, searchsortedRight, get_loc, scheduleAppend, SQLITE_MAX_IN_STATEMENT,
    List.dedup, List.findIdx?, List.countP, List.countP.go, List.enum, List.enumFrom,
    List.find?, List.reverse, List.reverseAux] <;> decide

theorem buildDateCache_concat (xs : List Int) (x : Int) :
    buildDateCache (xs ++ [x]) = buildDateCache xs ++ [(x, xs.length)] := by
  simp [buildDateCache, List.enum_append, List.enumFrom]

theorem dictFind_concat (cache : List (Int × Nat)) (x k : Int) (n : Nat) :
    dictFind (cache ++ [(x, n)]) k = if x = k then some n else dictFind cache k := by
  by_cases h : x = k <;> simp [dictFind, List.find?_cons, h]

theorem dictFind_isSome_iff_mem (xs : List Int) (k : Int) :
    (dictFind (buildDateCache xs) k).isSome ↔ k ∈ xs := by
  induction xs using List.reverseRecOn with
  | nil => simp [dictFind, buildDateCache]
  | append_singleton xs x ih =>
    rw [buildDateCache_concat, dictFind_concat]
    by_cases h : x = k
    · simp [h]
    · simp only [if_neg h, List.mem_append, List.mem_singleton, ih]
      constructor
      · exact fun hm => Or.inl hm
      · rintro (hm | hm)
        · exact hm
        · exact absurd hm.symm h

theorem dictFind_lt_length (xs : List Int) (k : Int) (i : Nat)
    (h : dictFind (buildDateCache xs) k = some i) : i < xs.length := by
  induction xs using List.reverseRecOn generalizing i with
  | nil => simp [dictFind, buildDateCache] at h
  | append_singleton xs x ih =>
    rw [buildDateCache_concat, dictFind_concat] at h
    by_cases hx : x = k
    · rw [if_pos hx] at h
      cases h
      simp
    · rw [if_neg hx] at h
      have := ih i h
      simp only [List.length_append, List.length_singleton]
      omega

theorem countP_le_eq_countP_lt_of_not_mem (xs : List Int) (k : Int) (h : k ∉ xs) :
    xs.countP (fun d => decide (d ≤ k)) = xs.countP (fun d => decide (d < k)) := by
  apply List.countP_congr
  intro x hx
  have hne : x ≠ k := fun he => h (he ▸ hx)
  simp only [decide_eq_true_eq]
  omega

theorem lookup_dt_sorted (dates : List Int) (dt : Int) (hs : dates.Sorted (· < ·)) :
    lookup_dt dates dt = dates.countP (fun d => decide (d < dt)) := by
  induction dates using List.reverseRecOn with
  | nil => simp [lookup_dt, dictFind, buildDateCache, searchsortedRight]
  | append_singleton xs x ih =>
    have hparts := (List.pairwise_append.mp hs)
    have hs' : xs.Sorted (· < ·) := hparts.1
    have hlt : ∀ y ∈ xs, y < x := fun y hy => hparts.2.2 y hy x (by simp)
    simp only [lookup_dt, buildDateCache_concat, dictFind_concat]
    by_cases hx : x = dt
    · subst hx
      rw [if_pos rfl, List.countP_append]
      have h1 : xs.countP (fun d => decide (d < x)) = xs.length :=
        List.countP_eq_length.mpr (fun y hy => by simpa using hlt y hy)
      simp [h1]
    · rw [if_neg hx]
      match hfind : dictFind (buildDateCache xs) dt with
      | some i =>
        have hmem : dt ∈ xs := (dictFind_isSome_iff_mem xs dt).mp (by rw [hfind]; rfl)
        have hdtx : dt < x := hlt dt hmem
        have hxs := ih hs'
        rw [lookup_dt, hfind] at hxs
        rw [List.countP_append, hxs]
        have : ¬ (x < dt) := by omega
        simp [this]
      | none =>
        have hnmem : dt ∉ xs := by
          rw [← dictFind_isSome_iff_mem, hfind]
          simp
        have hnx : dt ∉ xs ++ [x] := by
          simp only [List.mem_append, List.mem_singleton]
          rintro (h | h)
          · exact hnmem h
          · exact hx h.symm
        rw [searchsortedRight, countP_le_eq_countP_lt_of_not_mem _ _ hnx]

theorem lookup_dt_lt_length (dates : List Int) (dt e : Int)
    (hlast : dates.getLast? = some e) (hle : dt ≤ e) :
    lookup_dt dates dt < dates.length := by
  cases hfind : dictFind (buildDateCache dates) dt with
  | some i =>
    simp only [lookup_dt, hfind]
    exact dictFind_lt_length _ _ _ hfind
  | none =>
    simp only [lookup_dt, hfind]
    have hnmem : dt ∉ dates := by
      rw [← dictFind_isSome_iff_mem, hfind]
      simp
    have hmem : e ∈ dates := List.mem_of_getLast?_eq_some hlast
    have hne : e ≠ dt := fun h => hnmem (h ▸ hmem)
    have hnotall : ¬ (dates.countP (fun d => decide (d ≤ dt)) = dates.length) := by
      rw [List.countP_eq_length]
      intro hall
      have := hall e hmem
      simp only [decide_eq_true_eq] at this
      omega
    have hub := List.countP_le_length (fun d => decide (d ≤ dt)) (l := dates)
    rw [searchsortedRight]
    omega

theorem load_ok_iff (db : AdjustmentDB) (dates assets : List Int) (s m d : Bool)
    (t : String) (res : LoadResult) :
    load_adjustments_from_sqlite db dates assets s m d t = .ok res ↔
    ∃ d0 dl,
      (t == "price" || t == "volume" || t == "all") = true ∧
      dates.head? = some d0 ∧ dates.getLast? = some dl ∧
      loadValidated db dates assets s m d
        (t == "all" || t == "price") (t == "all" || t == "volume") d0 dl = .ok res := by
  constructor
  · intro h
    rw [load_adjustments_from_sqlite] at h
    split at h
    · split at h
      · next d0 dl hd hl => exact ⟨d0, dl, by assumption, hd, hl, h⟩
      · simp at h
    · simp at h
  · rintro ⟨d0, dl, hv, hd, hl, hlv⟩
    rw [load_adjustments_from_sqlite, if_pos hv, hd, hl]
    exact hlv

theorem loadValidated_ok_iff (db : AdjustmentDB) (dates assets : List Int)
    (s m d shouldP shouldV : Bool) (d0 dl : Int) (res : LoadResult) :
    loadValidated db dates assets s m d shouldP shouldV d0 dl = .ok res ↔
    ∃ ps vs,
      assemble shouldP shouldV dates assets d0
        (fetchCategory SQLITE_MAX_IN_STATEMENT db.splits
          (if s then get_sids_from_table db.splits d0 dl else []) d0 dl assets)
        (fetchCategory SQLITE_MAX_IN_STATEMENT db.mergers
          (if m && shouldP then get_sids_from_table db.mergers d0 dl else [])
          d0 dl assets ++
         fetchCategory SQLITE_MAX_IN_STATEMENT db.dividends
          (if d && shouldP then get_sids_from_table db.dividends d0 dl else [])
          d0 dl assets) = .ok (ps, vs) ∧
      res = ⟨if shouldP then some ps else none, if shouldV then some vs else none⟩ := by
  constructor
  · intro h
    rw [loadValidated] at h
    split at h
    · simp at h
    · next ps vs heq =>
      refine ⟨ps, vs, ?_, ?_⟩
      · exact heq
      · cases h
        rfl
  · rintro ⟨ps, vs, heq, hres⟩
    rw [loadValidated]
    simp only [adjustments_fetch] at heq ⊢
    rw [heq, hres]

theorem mem_fetchCategory (limit : Nat) (table : List AdjRecord) (sids : List Int)
    (s e : Int) (assets : List Int) (r : AdjRecord)
    (h : r ∈ fetchCategory limit table sids s e assets) :
    r ∈ table ∧ s ≤ r.effDate ∧ r.effDate ≤ e := by
  rw [fetchCategory] at h
  obtain ⟨l, hl, hr⟩ := List.mem_flatten.mp h
  obtain ⟨chunk, _hchunk, rfl⟩ := List.mem_map.mp hl
  rw [adjQuery] at hr
  have hp := List.of_mem_filter hr
  have hmem := List.mem_of_mem_filter hr
  simp only [Bool.and_eq_true, decide_eq_true_eq] at hp
  exact ⟨hmem, hp.1.2, hp.2⟩

theorem get_loc_lt_length (assets : List Int) (sid : Int) (ix : Nat)
    (h : get_loc assets sid = some ix) : ix < assets.length := by
  rw [get_loc] at h
  exact (List.findIdx?_eq_some_iff_findIdx_eq.mp h).1

theorem runLoop_inv {σ : Type} (P : σ → Prop) (f : σ → AdjRecord → Except AdjErr σ)
    (rows : List AdjRecord)
    (hstep : ∀ s r, r ∈ rows → P s → ∀ s', f s r = .ok s' → P s') :
    ∀ s₀ s₁, runLoop f s₀ rows = .ok s₁ → P s₀ → P s₁ := by
  induction rows with
  | nil =>
    intro s₀ s₁ h hP
    rw [runLoop] at h
    cases h
    exact hP
  | cons r rest ih =>
    intro s₀ s₁ h hP
    rw [runLoop] at h
    cases hf : f s₀ r with
    | error e => rw [hf] at h; simp at h
    | ok s' =>
      rw [hf] at h
      exact ih (fun s r' hr' => hstep s r' (List.mem_cons_of_mem _ hr')) s' s₁ h
        (hstep s₀ r (List.mem_cons_self _ _) hP s' hf)

theorem scheduleAppend_cases (sched : Schedule) (k : Nat) (adj : Float64Multiply)
    (p : Nat × List Float64Multiply) (hp : p ∈ scheduleAppend sched k adj) :
    p ∈ sched ∨ (∃ q ∈ sched, q.1 = k ∧ p = (q.1, q.2 ++ [adj])) ∨ p = (k, [adj]) := by
  rw [scheduleAppend] at hp
  by_cases hmem : sched.any (fun q => q.1 == k)
  · rw [if_pos hmem] at hp
    obtain ⟨q, hq, hpq⟩ := List.mem_map.mp hp
    by_cases hqk : (q.1 == k) = true
    · right; left
      exact ⟨q, hq, by simpa using hqk, by rw [← hpq, if_pos hqk]⟩
    · left
      rw [← hpq, if_neg hqk]
      exact hq
  · rw [if_neg hmem] at hp
    rcases List.mem_append.mp hp with h | h
    · left; exact h
    · right; right; simpa using h

theorem schedWellFormed_append (dates assets : List Int) (sched : Schedule)
    (k ix : Nat) (v : ℚ) (hw : schedWellFormed dates assets sched)
    (hk : k < dates.length) (hix : ix < assets.length) :
    schedWellFormed dates assets (scheduleAppend sched k ⟨0, k, ix, ix, v⟩) := by
  intro p hp
  rcases scheduleAppend_cases sched k _ p hp with h | ⟨q, hq, hqk, rfl⟩ | rfl
  · exact hw p h
  · refine ⟨hqk ▸ hk, ?_⟩
    intro adj hadj
    rcases List.mem_append.mp hadj with h | h
    · exact (hw q hq).2 adj h
    · rw [List.mem_singleton] at h
      subst h
      exact ⟨rfl, hqk.symm, rfl, hix⟩
  · refine ⟨hk, ?_⟩
    intro adj hadj
    rw [List.mem_singleton] at hadj
    subst hadj
    exact ⟨rfl, rfl, rfl, hix⟩

theorem splitStep_wf (sp sv : Bool) (dates assets : List Int) (start dl : Int)
    (hlast : dates.getLast? = some dl) (r : AdjRecord) (hr : r.effDate ≤ dl)
    (st st' : Schedule × Schedule)
    (hw : schedWellFormed dates assets st.1 ∧ schedWellFormed dates assets st.2)
    (h : splitStep sp sv dates assets start st r = .ok st') :
    schedWellFormed dates assets st'.1 ∧ schedWellFormed dates assets st'.2 := by
  simp only [splitStep] at h
  split at h
  · cases h; exact hw
  · split at h
    · simp at h
    · next ix hloc =>
      have hkd : lookup_dt dates r.effDate < dates.length :=
        lookup_dt_lt_length _ _ _ hlast hr
      have hix : ix < assets.length := get_loc_lt_length _ _ _ hloc
      have hps : schedWellFormed dates assets
          (if sp then scheduleAppend st.1 (lookup_dt dates r.effDate)
            ⟨0, lookup_dt dates r.effDate, ix, ix, r.ratio⟩ else st.1) := by
        split
        · exact schedWellFormed_append _ _ _ _ _ _ hw.1 hkd hix
        · exact hw.1
      split at h
      · split at h
        · simp at h
        · cases h
          exact ⟨hps, schedWellFormed_append _ _ _ _ _ _ hw.2 hkd hix⟩
      · cases h
        exact ⟨hps, hw.2⟩

theorem mergerDividendStep_wf (dates assets : List Int) (start dl : Int)
    (hlast : dates.getLast? = some dl) (r : AdjRecord) (hr : r.effDate ≤ dl)
    (ps ps' : Schedule) (hw : schedWellFormed dates assets ps)
    (h : mergerDividendStep dates assets start ps r = .ok ps') :
    schedWellFormed dates assets ps' := by
  simp only [mergerDividendStep] at h
  split at h
  · cases h; exact hw
  · split at h
    · simp at h
    · next ix hloc =>
      cases h
      exact schedWellFormed_append _ _ _ _ _ _ hw
        (lookup_dt_lt_length _ _ _ hlast hr) (get_loc_lt_length _ _ _ hloc)

theorem assemble_wf (sp sv : Bool) (dates assets : List Int) (start dl : Int)
    (hlast : dates.getLast? = some dl)
    (splitRows mdRows : List AdjRecord)
    (hsr : ∀ r ∈ splitRows, r.effDate ≤ dl) (hmr : ∀ r ∈ mdRows, r.effDate ≤ dl)
    (ps vs : Schedule)
    (h : assemble sp sv dates assets start splitRows mdRows = .ok (ps, vs)) :
    schedWellFormed dates assets ps ∧ schedWellFormed dates assets vs := by
  rw [assemble] at h
  split at h
  · simp at h
  · next sv1 h1 =>
    split at h
    · simp at h
    · next ps2 h2 =>
      cases h
      have hinv1 : schedWellFormed dates assets sv1.1 ∧ schedWellFormed dates assets sv1.2 := by
        refine runLoop_inv
          (fun st => schedWellFormed dates assets st.1 ∧ schedWellFormed dates assets st.2)
          _ _ ?_ _ _ h1 ?_
        · intro s r hrr hP s' hstep
          exact splitStep_wf sp sv dates assets start dl hlast r (hsr r hrr) s s' hP hstep
        · constructor <;> intro p hp <;> simp at hp
      refine ⟨?_, hinv1.2⟩
      refine runLoop_inv (fun ps0 => schedWellFormed dates assets ps0) _ _ ?_ _ _ h2 hinv1.1
      intro s r hrr hP s' hstep
      exact mergerDividendStep_wf dates assets start dl hlast r (hmr r hrr) s s' hP hstep

theorem load_ok_wellFormed (db : AdjustmentDB) (dates assets : List Int)
    (s m d : Bool) (t : String) (res : LoadResult)
    (h : load_adjustments_from_sqlite db dates assets s m d t = .ok res) :
    schedWellFormed dates assets (res.price.getD []) ∧
    schedWellFormed dates assets (res.volume.getD []) := by
  obtain ⟨d0, dl, _hv, _hd, hl, hlv⟩ := (load_ok_iff db dates assets s m d t res).mp h
  obtain ⟨ps, vs, hasm, hres⟩ := (loadValidated_ok_iff db dates assets s m d _ _ d0 dl res).mp hlv
  have hwf := assemble_wf _ _ dates assets d0 dl hl _ _
    (fun r hr => (mem_fetchCategory _ _ _ _ _ _ r hr).2.2)
    (fun r hr => by
      rcases List.mem_append.mp hr with h' | h'
      · exact (mem_fetchCategory _ _ _ _ _ _ r h').2.2
      · exact (mem_fetchCategory _ _ _ _ _ _ r h').2.2)
    ps vs hasm
  subst hres
  constructor
  · by_cases hp : (t == "all" || t == "price") = true
    · simpa [hp] using hwf.1
    · simp only [Bool.not_eq_true] at hp
      simp only [hp]
      intro p hp'
      simp at hp'
  · by_cases hp : (t == "all" || t == "volume") = true
    · simpa [hp] using hwf.2
    · simp only [Bool.not_eq_true] at hp
      simp only [hp]
      intro p hp'
      simp at hp'

/-- C1: the claim as stated fails on the code: for an `effective_date`
that exactly equals an axis entry, the pre-populated cache returns that
entry's own index, not the index of the first strictly greater date.
For axis `[0, 86400, 172800, 259200]` and `effective_date = 86400` the
lookup returns row 1, while the count of entries `≤ 86400` (the index of
the first date strictly greater) is 2. -/
theorem C1_counterexample :
    lookup_dt [0, 86400, 172800, 259200] 86400 = 1 ∧
    ([0, 86400, 172800, 259200] : List Int).countP (fun d => decide (d ≤ 86400)) = 2 := by
  decide

/-- C1 (amended): for every load over a strictly increasing date axis,
the date-to-row lookup returns the count of axis entries strictly less
than `effective_date` (for an `effective_date` equal to an axis entry
this is that entry's own index — one less than the right-side search
result; for any other `effective_date` it coincides with the count of
entries `≤ effective_date`), and two lookups of the same
`effective_date` within one load return the same row. -/
theorem C1_row_lookup (dates : List Int) (dt : Int) (hs : dates.Sorted (· < ·)) :
    lookup_dt dates dt = dates.countP (fun d => decide (d < dt)) ∧
    lookup_dt dates dt = lookup_dt dates dt :=
  ⟨lookup_dt_sorted dates dt hs, rfl⟩

/-- C1 witness: the amended theorem evaluated on the concrete axis of the
spec's scenario. -/
theorem C1_row_lookup_witness :
    ([0, 86400, 172800, 259200] : List Int).Sorted (· < ·) ∧
    (lookup_dt [0, 86400, 172800, 259200] 90000 =
      ([0, 86400, 172800, 259200] : List Int).countP (fun d => decide (d < 90000)) ∧
    lookup_dt [0, 86400, 172800, 259200] 90000 = lookup_dt [0, 86400, 172800, 259200] 90000) :=
  ⟨by decide, C1_row_lookup [0, 86400, 172800, 259200] 90000 (by decide)⟩

/-- C2: the claim as stated fails on the code.  For the spec's concrete
scenario (axis `[0, 86400, 172800, 259200]`, assets `[101]`, one split
`(101, 2.0, 86400)`, all categories, type `all`) the schedules key
row 1 — the pre-populated cache maps the exact axis date 86400 to its
own index — and row 2 is empty in both, contrary to the claimed
`{row 2: ...}`. -/
theorem C2_counterexample :
    load_adjustments_from_sqlite ⟨[⟨101, 2, 86400⟩], [], []⟩ [0, 86400, 172800, 259200] [101]
      true true true "all" =
    .ok ⟨some [(1, [⟨0, 1, 0, 0, 2⟩])], some [(1, [⟨0, 1, 0, 0, 1 / 2⟩])]⟩ ∧
    scheduleGet [(1, [(⟨0, 1, 0, 0, 2⟩ : Float64Multiply)])] 2 = [] ∧
    scheduleGet [(1, [(⟨0, 1, 0, 0, (1 : ℚ) / 2⟩ : Float64Multiply)])] 2 = [] :=
  ⟨scenario_split_load, by decide, by decide⟩

/-- C2 (amended): the scenario's price schedule maps row 1 (not row 2) to
the single correction `Multiply` with value 2.0 on column 0 (covering
rows 0–1, cf. C3), and the volume schedule maps row 1 to the single
`Multiply` with value 0.5 on column 0. -/
theorem C2_scenario_schedules :
    load_adjustments_from_sqlite ⟨[⟨101, 2, 86400⟩], [], []⟩ [0, 86400, 172800, 259200] [101]
      true true true "all" =
    .ok ⟨some [(1, [⟨0, 1, 0, 0, 2⟩])], some [(1, [⟨0, 1, 0, 0, 1 / 2⟩])]⟩ :=
  scenario_split_load

/-- C3: the claim as stated fails on the code: the correction scheduled
at row 1 in the concrete split scenario has `first_row = 0 ≠ 1 = last_row`,
because the source passes `0` as the region's first row
(`Float64Multiply(0, date_loc, asset_ix, asset_ix, ratio)`), so the
region is not the single cell at the scheduled row. -/
theorem C3_counterexample :
    load_adjustments_from_sqlite ⟨[⟨101, 2, 86400⟩], [], []⟩ [0, 86400, 172800, 259200] [101]
      true true true "all" =
    .ok ⟨some [(1, [⟨0, 1, 0, 0, 2⟩])], some [(1, [⟨0, 1, 0, 0, 1 / 2⟩])]⟩ ∧
    ¬ ((⟨0, 1, 0, 0, 2⟩ : Float64Multiply).first_row =
        (⟨0, 1, 0, 0, 2⟩ : Float64Multiply).last_row) :=
  ⟨scenario_split_load, by decide⟩

/-- C3 (amended): every `PendingCorrection` placed in a schedule by
`load_adjustments` covers the rectangle spanning rows 0 through its
scheduled row and the single column of its asset: first row = 0,
last row = the scheduled row, first column = last column. -/
theorem C3_correction_regions (db : AdjustmentDB) (dates assets : List Int) (s m d : Bool)
    (t : String) (res : LoadResult)
    (h : load_adjustments_from_sqlite db dates assets s m d t = .ok res) :
    schedRegions (res.price.getD []) ∧ schedRegions (res.volume.getD []) := by
  have hwf := load_ok_wellFormed db dates assets s m d t res h
  constructor
  · intro p hp adj ha
    obtain ⟨_, h2⟩ := hwf.1 p hp
    obtain ⟨ha1, ha2, ha3, _⟩ := h2 adj ha
    exact ⟨ha1, ha2, ha3⟩
  · intro p hp adj ha
    obtain ⟨_, h2⟩ := hwf.2 p hp
    obtain ⟨ha1, ha2, ha3, _⟩ := h2 adj ha
    exact ⟨ha1, ha2, ha3⟩

/-- C3 witness: the amended region shape evaluated on the concrete split
scenario's two schedules. -/
theorem C3_correction_regions_witness :
    schedRegions [(1, [(⟨0, 1, 0, 0, 2⟩ : Float64Multiply)])] ∧
    schedRegions [(1, [(⟨0, 1, 0, 0, (1 : ℚ) / 2⟩ : Float64Multiply)])] :=
  C3_correction_regions _ _ _ _ _ _ _ _ scenario_split_load

/-- C8: for every schedule returned by `load_adjustments` (the inclusive
query range enforcing `effective_date ≤` last axis date, and a
successful `assets.get_loc` enforcing sid membership, are consequences
of `load` returning at all), every row key and every correction's row
indices lie in `[0, len dates)` and every correction's column indices
lie in `[0, len assets)`. -/
theorem C8_schedule_bounds (db : AdjustmentDB) (dates assets : List Int) (s m d : Bool)
    (t : String) (res : LoadResult)
    (h : load_adjustments_from_sqlite db dates assets s m d t = .ok res) :
    schedInBounds dates assets (res.price.getD []) ∧
    schedInBounds dates assets (res.volume.getD []) := by
  have hwf := load_ok_wellFormed db dates assets s m d t res h
  obtain ⟨d0, dl, _, hd, _, _⟩ := (load_ok_iff db dates assets s m d t res).mp h
  have hlen : 0 < dates.length := by
    cases dates
    · simp at hd
    · simp
  constructor
  · intro p hp
    obtain ⟨h1, h2⟩ := hwf.1 p hp
    refine ⟨h1, fun adj ha => ?_⟩
    obtain ⟨ha1, ha2, ha3, ha4⟩ := h2 adj ha
    exact ⟨ha1 ▸ hlen, ha2 ▸ h1, ha3 ▸ ha4, ha4⟩
  · intro p hp
    obtain ⟨h1, h2⟩ := hwf.2 p hp
    refine ⟨h1, fun adj ha => ?_⟩
    obtain ⟨ha1, ha2, ha3, ha4⟩ := h2 adj ha
    exact ⟨ha1 ▸ hlen, ha2 ▸ h1, ha3 ▸ ha4, ha4⟩

/-- C8 witness: the bounds evaluated on the concrete split scenario. -/
theorem C8_schedule_bounds_witness :
    schedInBounds [0, 86400, 172800, 259200] [101] [(1, [(⟨0, 1, 0, 0, 2⟩ : Float64Multiply)])] ∧
    schedInBounds [0, 86400, 172800, 259200] [101]
      [(1, [(⟨0, 1, 0, 0, (1 : ℚ) / 2⟩ : Float64Multiply)])] :=
  C8_schedule_bounds _ _ _ _ _ _ _ _ scenario_split_load

theorem assemble_ok_volume (sp sv : Bool) (dates assets : List Int) (start : Int)
    (splitRows mdRows : List AdjRecord) (ps vs : Schedule)
    (h : assemble sp sv dates assets start splitRows mdRows = .ok (ps, vs)) :
    ∃ sv1, runLoop (splitStep sp sv dates assets start) ([], []) splitRows = .ok sv1 ∧
      vs = sv1.2 := by
  rw [assemble] at h
  split at h
  · simp at h
  · next sv1 h1 =>
    split at h
    · simp at h
    · cases h
      exact ⟨sv1, h1, rfl⟩

/-- C4: a retained split with ratio `r` appends a price `Multiply` of
value `r` when price output is requested and a volume `Multiply` of
value `1/r` when volume output is requested, at the same scheduled row
and asset column; a retained merger or dividend appends only a price
`Multiply` of value `r`; and the volume schedule of a load is entirely
independent of the contents of the `mergers` and `dividends` tables. -/
theorem C4_split_merger_multipliers :
    (∀ (sp sv : Bool) (dates assets : List Int) (start : Int)
        (ps vs : Schedule) (r : AdjRecord) (ix : Nat),
      ¬ r.effDate < start → get_loc assets r.sid = some ix → ¬ r.ratio = 0 →
      splitStep sp sv dates assets start (ps, vs) r =
        .ok (if sp then scheduleAppend ps (lookup_dt dates r.effDate)
                ⟨0, lookup_dt dates r.effDate, ix, ix, r.ratio⟩ else ps,
             if sv then scheduleAppend vs (lookup_dt dates r.effDate)
                ⟨0, lookup_dt dates r.effDate, ix, ix, 1 / r.ratio⟩ else vs)) ∧
    (∀ (dates assets : List Int) (start : Int) (ps : Schedule) (r : AdjRecord) (ix : Nat),
      ¬ r.effDate < start → get_loc assets r.sid = some ix →
      mergerDividendStep dates assets start ps r =
        .ok (scheduleAppend ps (lookup_dt dates r.effDate)
              ⟨0, lookup_dt dates r.effDate, ix, ix, r.ratio⟩)) ∧
    (∀ (db1 db2 : AdjustmentDB) (dates assets : List Int) (s m d : Bool) (t : String)
        (res1 res2 : LoadResult),
      db1.splits = db2.splits →
      load_adjustments_from_sqlite db1 dates assets s m d t = .ok res1 →
      load_adjustments_from_sqlite db2 dates assets s m d t = .ok res2 →
      res1.volume = res2.volume) := by
  refine ⟨?_, ?_, ?_⟩
  · intro sp sv dates assets start ps vs r ix h1 hloc h3
    simp only [splitStep, if_neg h1, hloc]
    by_cases hsv : sv
    · simp [hsv, h3]
    · simp [hsv]
  · intro dates assets start ps r ix h1 hloc
    simp only [mergerDividendStep, if_neg h1, hloc]
  · intro db1 db2 dates assets s m d t res1 res2 hsp h1 h2
    obtain ⟨d0, dl, hv, hd, hl, hlv1⟩ := (load_ok_iff db1 dates assets s m d t res1).mp h1
    obtain ⟨d0', dl', _, hd', hl', hlv2⟩ := (load_ok_iff db2 dates assets s m d t res2).mp h2
    rw [hd] at hd'
    cases hd'
    rw [hl] at hl'
    cases hl'
    obtain ⟨ps1, vs1, ha1, hres1⟩ :=
      (loadValidated_ok_iff db1 dates assets s m d _ _ d0 dl res1).mp hlv1
    obtain ⟨ps2, vs2, ha2, hres2⟩ :=
      (loadValidated_ok_iff db2 dates assets s m d _ _ d0 dl res2).mp hlv2
    obtain ⟨sva, hra, hva⟩ := assemble_ok_volume _ _ _ _ _ _ _ _ _ ha1
    obtain ⟨svb, hrb, hvb⟩ := assemble_ok_volume _ _ _ _ _ _ _ _ _ ha2
    rw [hsp] at hra
    rw [hra] at hrb
    cases hrb
    rw [hres1, hres2]
    simp only [hva, hvb]

/-- C4 witness: the split step, the merger/dividend step and the
volume-independence applied at concrete inputs. -/
theorem C4_split_merger_multipliers_witness :
    splitStep true true [0, 86400, 172800, 259200] [101] 0 ([], []) ⟨101, 2, 86400⟩ =
      .ok ([(1, [⟨0, 1, 0, 0, 2⟩])], [(1, [⟨0, 1, 0, 0, 1 / 2⟩])]) ∧
    mergerDividendStep [0, 86400, 172800, 259200] [101] 0 [] ⟨101, 3, 86400⟩ =
      .ok [(1, [⟨0, 1, 0, 0, 3⟩])] ∧
    (⟨some [(1, [⟨0, 1, 0, 0, 2⟩])], some [(1, [⟨0, 1, 0, 0, 1 / 2⟩])]⟩ : LoadResult).volume =
      (⟨some [(1, [⟨0, 1, 0, 0, 2⟩])], some [(1, [⟨0, 1, 0, 0, 1 / 2⟩])]⟩ : LoadResult).volume := by
  refine ⟨?_, ?_, ?_⟩
  · have h := C4_split_merger_multipliers.1 true true [0, 86400, 172800, 259200] [101] 0
      [] [] ⟨101, 2, 86400⟩ 0 (by decide) (by decide) (by norm_num)
    rw [h]
    norm_num [scheduleAppend, lookup_dt, dictFind, buildDateCache, List.enum, List.enumFrom,
      List.find?, List.reverse, List.reverseAux] <;> decide
  · have h := C4_split_merger_multipliers.2.1 [0, 86400, 172800, 259200] [101] 0
      [] ⟨101, 3, 86400⟩ 0 (by decide) (by decide)
    rw [h]
    norm_num [scheduleAppend, lookup_dt, dictFind, buildDateCache, List.enum, List.enumFrom,
      List.find?, List.reverse, List.reverseAux] <;> decide
  · exact C4_split_merger_multipliers.2.2 ⟨[⟨101, 2, 86400⟩], [], []⟩ ⟨[⟨101, 2, 86400⟩], [], []⟩
      [0, 86400, 172800, 259200] [101] true true true "all" _ _ rfl
      scenario_split_load scenario_split_load

theorem fetchCategory_nil_sids (limit : Nat) (table : List AdjRecord)
    (s e : Int) (assets : List Int) :
    fetchCategory limit table [] s e assets = [] := by
  have hfilter : assets.filter (fun a => decide (a ∈ ([] : List Int))) = [] := by
    simp
  rw [fetchCategory, hfilter]
  simp [chunksOf]

theorem loadValidated_price_off (db : AdjustmentDB) (dates assets : List Int)
    (s m d sv : Bool) (d0 dl : Int) :
    loadValidated db dates assets s m d false sv d0 dl =
    loadValidated ⟨db.splits, [], []⟩ dates assets s false false false sv d0 dl := by
  rw [loadValidated, loadValidated]
  simp [adjustments_fetch, fetchCategory_nil_sids]

/-- C6: with `adjustment_type = "volume"` the merger and dividend tables
contribute nothing (their include-flags are forced off before any sid is
resolved), so the load is literally the load of a database with empty
merger/dividend tables and both flags false; and in general the result
carries the `price` key iff the type is `price` or `all` and the
`volume` key iff the type is `volume` or `all`. -/
theorem C6_scope :
    (∀ (db : AdjustmentDB) (dates assets : List Int) (s m d : Bool),
      load_adjustments_from_sqlite db dates assets s m d "volume" =
      load_adjustments_from_sqlite ⟨db.splits, [], []⟩ dates assets s false false "volume") ∧
    (∀ (db : AdjustmentDB) (dates assets : List Int) (s m d : Bool) (t : String)
        (res : LoadResult),
      load_adjustments_from_sqlite db dates assets s m d t = .ok res →
      ((res.price.isSome ↔ (t = "price" ∨ t = "all")) ∧
       (res.volume.isSome ↔ (t = "volume" ∨ t = "all")))) := by
  constructor
  · intro db dates assets s m d
    rw [load_adjustments_from_sqlite, load_adjustments_from_sqlite]
    have hb : (("volume" : String) == "price" || "volume" == "volume" || "volume" == "all")
        = true := by decide
    rw [if_pos hb, if_pos hb]
    cases hd : dates.head? with
    | none => rfl
    | some d0 =>
      cases hl : dates.getLast? with
      | none => rfl
      | some dl =>
        show loadValidated db dates assets s m d false _ d0 dl = _
        exact loadValidated_price_off db dates assets s m d _ d0 dl
  · intro db dates assets s m d t res h
    obtain ⟨d0, dl, _hv, _hd, _hl, hlv⟩ := (load_ok_iff db dates assets s m d t res).mp h
    obtain ⟨ps, vs, _ha, hres⟩ :=
      (loadValidated_ok_iff db dates assets s m d _ _ d0 dl res).mp hlv
    subst hres
    constructor
    · by_cases hp : (t == "all" || t == "price") = true
      · simp only [hp, if_true, Option.isSome_some, true_iff]
        simp only [Bool.or_eq_true, beq_iff_eq] at hp
        tauto
      · simp only [Bool.not_eq_true] at hp
        simp only [hp, Bool.false_eq_true, if_false, Option.isSome_none,
          Bool.false_eq_true, false_iff]
        simp only [Bool.or_eq_false_iff, beq_eq_false_iff_ne, ne_eq] at hp
        tauto
    · by_cases hp : (t == "all" || t == "volume") = true
      · simp only [hp, if_true, Option.isSome_some, true_iff]
        simp only [Bool.or_eq_true, beq_iff_eq] at hp
        tauto
      · simp only [Bool.not_eq_true] at hp
        simp only [hp, Bool.false_eq_true, if_false, Option.isSome_none,
          Bool.false_eq_true, false_iff]
        simp only [Bool.or_eq_false_iff, beq_eq_false_iff_ne, ne_eq] at hp
        tauto

/-- C6 witness: the scope behaviour applied at concrete inputs (a
database carrying a merger row, type `volume`; and the concrete split
scenario for the key-presence equivalences). -/
theorem C6_scope_witness :
    load_adjustments_from_sqlite ⟨[⟨101, 2, 86400⟩], [⟨101, 3, 86400⟩], []⟩
      [0, 86400, 172800, 259200] [101] true true true "volume" =
    load_adjustments_from_sqlite ⟨[⟨101, 2, 86400⟩], [], []⟩
      [0, 86400, 172800, 259200] [101] true false false "volume" ∧
    (((⟨some [(1, [⟨0, 1, 0, 0, 2⟩])], some [(1, [⟨0, 1, 0, 0, 1 / 2⟩])]⟩ :
        LoadResult).price.isSome ↔ (("all" : String) = "price" ∨ ("all" : String) = "all")) ∧
     ((⟨some [(1, [⟨0, 1, 0, 0, 2⟩])], some [(1, [⟨0, 1, 0, 0, 1 / 2⟩])]⟩ :
        LoadResult).volume.isSome ↔ (("all" : String) = "volume" ∨ ("all" : String) = "all"))) :=
  ⟨C6_scope.1 ⟨[⟨101, 2, 86400⟩], [⟨101, 3, 86400⟩], []⟩ [0, 86400, 172800, 259200] [101]
      true true true,
   C6_scope.2 ⟨[⟨101, 2, 86400⟩], [], []⟩ [0, 86400, 172800, 259200] [101] true true true
      "all" _ scenario_split_load⟩

/-- C9: `AdjustedArrayWindow.advance_to` is monotonic-only: a request
for a row strictly before the previous cursor fails with the ordering
error (it is never clamped), and repeating a successful `advance_to`
with the same row returns the identical cached view and leaves the
state — in particular the baseline buffer — untouched, so no correction
is reapplied. -/
theorem C9_advance_to_monotonic (st : AdjustedArrayWindow) (row : Nat) :
    (∀ c, st.cursor = some c → row < c → advance_to st row = .error .ordering) ∧
    (∀ st' v, advance_to st row = .ok (st', v) → advance_to st' row = .ok (st', v)) := by
  constructor
  · intro c hc hlt
    simp only [advance_to, hc]
    rw [if_pos hlt]
  · intro st' v h
    simp only [advance_to] at h
    cases hc : st.cursor with
    | some c =>
      simp only [hc] at h
      by_cases h1 : row < c
      · rw [if_pos h1] at h
        simp at h
      · rw [if_neg h1] at h
        by_cases h2 : row = c
        · rw [if_pos h2] at h
          simp only [Except.ok.injEq, Prod.mk.injEq] at h
          obtain ⟨h3, h4⟩ := h
          subst h3
          subst h4
          simp only [advance_to, hc]
          rw [if_neg h1, if_pos h2]
        · rw [if_neg h2] at h
          by_cases h3 : row + 1 < st.window_length
          · rw [if_pos h3] at h
            simp at h
          · rw [if_neg h3] at h
            simp only [Except.ok.injEq, Prod.mk.injEq] at h
            obtain ⟨h4, h5⟩ := h
            subst h4
            subst h5
            simp [advance_to]
    | none =>
      simp only [hc] at h
      by_cases h3 : row + 1 < st.window_length
      · rw [if_pos h3] at h
        simp at h
      · rw [if_neg h3] at h
        simp only [Except.ok.injEq, Prod.mk.injEq] at h
        obtain ⟨h4, h5⟩ := h
        subst h4
        subst h5
        simp [advance_to]

/-- C9 witness: a concrete window whose cursor is at row 2: rewinding to
row 1 fails with the ordering error, and repeating `advance_to 2`
returns the identical cached view and state. -/
theorem C9_advance_to_monotonic_witness :
    advance_to ⟨[[1], [2], [3]], [], 1, some 2, [[3]]⟩ 1 = .error .ordering ∧
    advance_to ⟨[[1], [2], [3]], [], 1, some 2, [[3]]⟩ 2 =
      .ok (⟨[[1], [2], [3]], [], 1, some 2, [[3]]⟩, [[3]]) :=
  ⟨(C9_advance_to_monotonic ⟨[[1], [2], [3]], [], 1, some 2, [[3]]⟩ 1).1 2 rfl (by decide),
   (C9_advance_to_monotonic ⟨[[1], [2], [3]], [], 1, some 2, [[3]]⟩ 2).2
     ⟨[[1], [2], [3]], [], 1, some 2, [[3]]⟩ [[3]] rfl⟩

theorem chunksOf_flatten (limit : Nat) (hl : 0 < limit) (xs : List Int) :
    (chunksOf limit xs).flatten = xs := by
  have H : ∀ (n : Nat) (ys : List Int), ys.length ≤ n → (chunksOf limit ys).flatten = ys := by
    intro n
    induction n with
    | zero =>
      intro ys hy
      have hnil : ys = [] := List.eq_nil_of_length_eq_zero (Nat.le_zero.mp hy)
      subst hnil
      simp [chunksOf]
    | succ n ih =>
      intro ys hy
      cases ys with
      | nil => simp [chunksOf]
      | cons y t =>
        rw [chunksOf, dif_neg (Nat.pos_iff_ne_zero.mp hl), List.flatten_cons,
          ih ((y :: t).drop (min (y :: t).length limit)) ?_]
        · exact List.take_append_drop _ _
        · simp only [List.length_drop, List.length_cons]
          simp only [List.length_cons] at hy
          omega
  exact H xs.length xs le_rfl

theorem chunksOf_length_le (limit : Nat) (hl : 0 < limit) (xs : List Int) :
    ∀ ch ∈ chunksOf limit xs, ch.length ≤ limit := by
  have H : ∀ (n : Nat) (ys : List Int), ys.length ≤ n →
      ∀ ch ∈ chunksOf limit ys, ch.length ≤ limit := by
    intro n
    induction n with
    | zero =>
      intro ys hy ch hch
      have hnil : ys = [] := List.eq_nil_of_length_eq_zero (Nat.le_zero.mp hy)
      subst hnil
      simp [chunksOf] at hch
    | succ n ih =>
      intro ys hy ch hch
      cases ys with
      | nil => simp [chunksOf] at hch
      | cons y t =>
        rw [chunksOf, dif_neg (Nat.pos_iff_ne_zero.mp hl)] at hch
        rcases List.mem_cons.mp hch with h | h
        · subst h
          simp only [List.length_take]
          omega
        · refine ih ((y :: t).drop (min (y :: t).length limit)) ?_ ch h
          simp only [List.length_drop, List.length_cons]
          simp only [List.length_cons] at hy
          omega
  exact H xs.length xs le_rfl

theorem filter_or_perm {α : Type} (p q : α → Bool) (l : List α)
    (h : ∀ x ∈ l, ¬(p x = true ∧ q x = true)) :
    (l.filter (fun x => p x || q x)).Perm (l.filter p ++ l.filter q) := by
  induction l with
  | nil => simp
  | cons a t ih =>
    have ht : ∀ x ∈ t, ¬(p x = true ∧ q x = true) :=
      fun x hx => h x (List.mem_cons_of_mem _ hx)
    by_cases hp : p a = true
    · have hq : ¬ q a = true := fun hq => h a (List.mem_cons_self _ _) ⟨hp, hq⟩
      rw [List.filter_cons_of_pos (by simp [hp]), List.filter_cons_of_pos hp,
        List.filter_cons_of_neg (by simpa using hq)]
      simpa using (ih ht).cons a
    · by_cases hq : q a = true
      · rw [List.filter_cons_of_pos (by simp [hp, hq]),
          List.filter_cons_of_neg (by simpa using hp), List.filter_cons_of_pos hq]
        exact ((ih ht).cons a).trans List.perm_middle.symm
      · rw [List.filter_cons_of_neg (by simp [hp, hq]),
          List.filter_cons_of_neg (by simpa using hp),
          List.filter_cons_of_neg (by simpa using hq)]
        exact ih ht

theorem adjQuery_append_perm (table : List AdjRecord) (c1 c2 : List Int) (s e : Int)
    (hdisj : ∀ x, x ∈ c1 → x ∉ c2) :
    (adjQuery table (c1 ++ c2) s e).Perm (adjQuery table c1 s e ++ adjQuery table c2 s e) := by
  have hpt : ∀ r : AdjRecord,
      (decide (r.sid ∈ c1 ++ c2) && decide (s ≤ r.effDate) && decide (r.effDate ≤ e)) =
      ((decide (r.sid ∈ c1) && decide (s ≤ r.effDate) && decide (r.effDate ≤ e)) ||
       (decide (r.sid ∈ c2) && decide (s ≤ r.effDate) && decide (r.effDate ≤ e))) := by
    intro r
    have h1 : decide (r.sid ∈ c1 ++ c2) = (decide (r.sid ∈ c1) || decide (r.sid ∈ c2)) := by
      by_cases ha : r.sid ∈ c1 <;> by_cases hb : r.sid ∈ c2 <;>
        simp [List.mem_append, ha, hb]
    rw [h1]
    cases decide (r.sid ∈ c1) <;> cases decide (r.sid ∈ c2) <;>
      cases decide (s ≤ r.effDate) <;> cases decide (r.effDate ≤ e) <;> rfl
  rw [adjQuery, List.filter_congr (fun x _ => hpt x)]
  refine filter_or_perm _ _ table ?_
  intro x _ hx
  obtain ⟨ha, hb⟩ := hx
  simp only [Bool.and_eq_true, decide_eq_true_eq] at ha hb
  exact hdisj _ ha.1.1 hb.1.1

theorem chunks_fetch_perm (limit : Nat) (hl : 0 < limit) (table : List AdjRecord)
    (s e : Int) (xs : List Int) (hnd : xs.Nodup) :
    (((chunksOf limit xs).map (fun c => adjQuery table c s e)).flatten).Perm
      (adjQuery table xs s e) := by
  have H : ∀ (n : Nat) (ys : List Int), ys.length ≤ n → ys.Nodup →
      (((chunksOf limit ys).map (fun c => adjQuery table c s e)).flatten).Perm
        (adjQuery table ys s e) := by
    intro n
    induction n with
    | zero =>
      intro ys hy _hnd
      have hnil : ys = [] := List.eq_nil_of_length_eq_zero (Nat.le_zero.mp hy)
      subst hnil
      simp [chunksOf, adjQuery]
    | succ n ih =>
      intro ys hy hnd
      cases ys with
      | nil => simp [chunksOf, adjQuery]
      | cons y t =>
        rw [chunksOf, dif_neg (Nat.pos_iff_ne_zero.mp hl), List.map_cons, List.flatten_cons]
        have hsplit : (y :: t).take (min (y :: t).length limit) ++
            (y :: t).drop (min (y :: t).length limit) = y :: t :=
          List.take_append_drop _ _
        have hnd' : ((y :: t).take (min (y :: t).length limit) ++
            (y :: t).drop (min (y :: t).length limit)).Nodup := by rw [hsplit]; exact hnd
        have hndr : ((y :: t).drop (min (y :: t).length limit)).Nodup :=
          (List.nodup_append.mp hnd').2.1
        have hdisj : ∀ x ∈ (y :: t).take (min (y :: t).length limit),
            x ∉ (y :: t).drop (min (y :: t).length limit) :=
          fun x hx hx' => List.disjoint_of_nodup_append hnd' hx hx'
        have hlen : ((y :: t).drop (min (y :: t).length limit)).length ≤ n := by
          simp only [List.length_drop, List.length_cons]
          simp only [List.length_cons] at hy
          omega
        refine ((ih _ hlen hndr).append_left _).trans ?_
        refine (adjQuery_append_perm table _ _ s e hdisj).symm.trans ?_
        rw [hsplit]
  exact H xs.length xs le_rfl hnd

theorem fetchCategory_single_chunk (limit : Nat) (hl : 0 < limit)
    (table : List AdjRecord) (sids : List Int) (s e : Int) (assets : List Int)
    (hlen : (assets.filter (fun a => decide (a ∈ sids))).length ≤ limit) :
    fetchCategory limit table sids s e assets =
      adjQuery table (assets.filter (fun a => decide (a ∈ sids))) s e := by
  rw [fetchCategory]
  cases hxs : assets.filter (fun a => decide (a ∈ sids)) with
  | nil =>
    rw [chunksOf]
    simp only [List.map_nil, List.flatten_nil]
    rw [adjQuery, eq_comm, List.filter_eq_nil_iff]
    intro r _
    simp
  | cons y t =>
    rw [hxs] at hlen
    rw [chunksOf, dif_neg (Nat.pos_iff_ne_zero.mp hl)]
    have hmin : min (y :: t).length limit = (y :: t).length := Nat.min_eq_left hlen
    rw [hmin, List.take_length, List.drop_length]
    rw [chunksOf]
    simp

/-- C5: the chunked fetch loop of `_adjustments` partitions the
candidate list into consecutive chunks of at most `limit` ids (so no
query ever binds more than the sqlite parameter limit), and the
concatenation of the per-chunk query results in chunk order is, for
every candidate list drawn from a duplicate-free asset axis — including
empty lists, singletons and exact multiples of the limit — a
permutation of (i.e. the same result multiset as; an `IN (...)` query
without `ORDER BY` guarantees no row order) the single unchunked query
over the whole list, and is literally equal to it whenever one chunk
suffices. -/
theorem C5_chunked_fetch_equiv (limit : Nat) (table : List AdjRecord) (sids : List Int)
    (s e : Int) (assets : List Int) (hl : 0 < limit) (hnd : assets.Nodup) :
    (∀ ch ∈ chunksOf limit (assets.filter (fun a => decide (a ∈ sids))), ch.length ≤ limit) ∧
    (fetchCategory limit table sids s e assets).Perm
      (adjQuery table (assets.filter (fun a => decide (a ∈ sids))) s e) ∧
    ((assets.filter (fun a => decide (a ∈ sids))).length ≤ limit →
      fetchCategory limit table sids s e assets =
        adjQuery table (assets.filter (fun a => decide (a ∈ sids))) s e) :=
  ⟨chunksOf_length_le limit hl _,
   by
    rw [fetchCategory]
    exact chunks_fetch_perm limit hl table s e _ (hnd.filter _),
   fun hlen => fetchCategory_single_chunk limit hl table sids s e assets hlen⟩

/-- C5 witness: the chunked fetch with chunk limit 2 over a four-element
axis (two full chunks), evaluated concretely. -/
theorem C5_chunked_fetch_equiv_witness :
    (∀ ch ∈ chunksOf 2 (([1, 2, 3, 4] : List Int).filter
        (fun a => decide (a ∈ ([1, 2, 3, 4] : List Int)))), ch.length ≤ 2) ∧
    (fetchCategory 2 [⟨3, 2, 5⟩, ⟨1, 2, 5⟩] [1, 2, 3, 4] 0 10 [1, 2, 3, 4]).Perm
      (adjQuery [⟨3, 2, 5⟩, ⟨1, 2, 5⟩] (([1, 2, 3, 4] : List Int).filter
        (fun a => decide (a ∈ ([1, 2, 3, 4] : List Int)))) 0 10) ∧
    ((([1, 2, 3, 4] : List Int).filter
        (fun a => decide (a ∈ ([1, 2, 3, 4] : List Int)))).length ≤ 2 →
      fetchCategory 2 [⟨3, 2, 5⟩, ⟨1, 2, 5⟩] [1, 2, 3, 4] 0 10 [1, 2, 3, 4] =
        adjQuery [⟨3, 2, 5⟩, ⟨1, 2, 5⟩] (([1, 2, 3, 4] : List Int).filter
          (fun a => decide (a ∈ ([1, 2, 3, 4] : List Int)))) 0 10) :=
  C5_chunked_fetch_equiv 2 [⟨3, 2, 5⟩, ⟨1, 2, 5⟩] [1, 2, 3, 4] 0 10 [1, 2, 3, 4]
    (by decide) (by decide)

theorem get_sids_filterRange (table : List AdjRecord) (d0 dl : Int) :
    get_sids_from_table
      (table.filter (fun r => decide (d0 ≤ r.effDate) && decide (r.effDate ≤ dl))) d0 dl =
    get_sids_from_table table d0 dl := by
  rw [get_sids_from_table, get_sids_from_table, List.filter_filter]
  have heq : table.filter
      (fun a => (decide (d0 ≤ a.effDate) && decide (a.effDate ≤ dl)) &&
        (decide (d0 ≤ a.effDate) && decide (a.effDate ≤ dl))) =
      table.filter (fun a => decide (d0 ≤ a.effDate) && decide (a.effDate ≤ dl)) :=
    List.filter_congr (fun a _ => Bool.and_self _)
  rw [heq]

theorem adjQuery_filterRange (table : List AdjRecord) (chunk : List Int) (s e : Int) :
    adjQuery (table.filter (fun r => decide (s ≤ r.effDate) && decide (r.effDate ≤ e)))
      chunk s e =
    adjQuery table chunk s e := by
  rw [adjQuery, adjQuery, List.filter_filter]
  apply List.filter_congr
  intro x _
  cases decide (x.sid ∈ chunk) <;> cases decide (s ≤ x.effDate) <;>
    cases decide (x.effDate ≤ e) <;> rfl

theorem fetchCategory_filterRange (limit : Nat) (table : List AdjRecord) (sids : List Int)
    (s e : Int) (assets : List Int) :
    fetchCategory limit
      (table.filter (fun r => decide (s ≤ r.effDate) && decide (r.effDate ≤ e)))
      sids s e assets =
    fetchCategory limit table sids s e assets := by
  rw [fetchCategory, fetchCategory]
  congr 1
  exact List.map_congr_left (fun c _ => adjQuery_filterRange table c s e)

theorem loadValidated_filterRange (db : AdjustmentDB) (dates assets : List Int)
    (s m d sp sv : Bool) (d0 dl : Int) :
    loadValidated (filterRange db d0 dl) dates assets s m d sp sv d0 dl =
    loadValidated db dates assets s m d sp sv d0 dl := by
  rw [loadValidated, loadValidated]
  simp only [filterRange, adjustments_fetch, get_sids_filterRange, fetchCategory_filterRange]

theorem load_filterRange (db : AdjustmentDB) (dates assets : List Int)
    (s m d : Bool) (t : String) (d0 dl : Int)
    (hd : dates.head? = some d0) (hl : dates.getLast? = some dl) :
    load_adjustments_from_sqlite (filterRange db d0 dl) dates assets s m d t =
    load_adjustments_from_sqlite db dates assets s m d t := by
  rw [load_adjustments_from_sqlite, load_adjustments_from_sqlite]
  by_cases hv : (t == "price" || t == "volume" || t == "all") = true
  · rw [if_pos hv, if_pos hv]
    simp only [hd, hl]
    exact loadValidated_filterRange db dates assets s m d _ _ d0 dl
  · rw [if_neg hv, if_neg hv]

/-- C7: a load depends only on the records whose `effective_date` lies
in the inclusive query range `[start_date, end_date]` spanned by the
date axis — records before `start_date` are kept out by both the query
and the `eff_date < start_date` skip, records after `end_date` by the
query — so when every record of the database lies outside the range
(in particular when it lies in a disjoint earlier or later date range),
the load equals the load of an empty database and the record appears in
no schedule. -/
theorem C7_range_exclusivity (db : AdjustmentDB) (dates assets : List Int)
    (s m d : Bool) (t : String) (d0 dl : Int)
    (hd : dates.head? = some d0) (hl : dates.getLast? = some dl) :
    load_adjustments_from_sqlite db dates assets s m d t =
      load_adjustments_from_sqlite (filterRange db d0 dl) dates assets s m d t ∧
    ((∀ r ∈ db.splits ++ db.mergers ++ db.dividends, r.effDate < d0 ∨ dl < r.effDate) →
      load_adjustments_from_sqlite db dates assets s m d t =
        load_adjustments_from_sqlite ⟨[], [], []⟩ dates assets s m d t) := by
  have h1 := (load_filterRange db dates assets s m d t d0 dl hd hl).symm
  refine ⟨h1, fun hout => ?_⟩
  have hempty : filterRange db d0 dl = ⟨[], [], []⟩ := by
    rw [filterRange]
    simp only [AdjustmentDB.mk.injEq]
    refine ⟨?_, ?_, ?_⟩ <;> rw [List.filter_eq_nil_iff]
    · intro r hr
      have := hout r (by simp [hr])
      simp only [Bool.and_eq_true, decide_eq_true_eq, not_and]
      intro h'
      omega
    · intro r hr
      have := hout r (by simp [hr])
      simp only [Bool.and_eq_true, decide_eq_true_eq, not_and]
      intro h'
      omega
    · intro r hr
      have := hout r (by simp [hr])
      simp only [Bool.and_eq_true, decide_eq_true_eq, not_and]
      intro h'
      omega
  rw [h1, hempty]

/-- C7 witness: a database holding one split dated before the axis and
one merger dated after it: the load over the axis `[0, 86400]` equals
the load of the range-filtered (here: empty) database. -/
theorem C7_range_exclusivity_witness :
    load_adjustments_from_sqlite ⟨[⟨101, 2, -5⟩], [⟨101, 3, 100000⟩], []⟩ [0, 86400] [101]
      true true true "all" =
      load_adjustments_from_sqlite
        (filterRange ⟨[⟨101, 2, -5⟩], [⟨101, 3, 100000⟩], []⟩ 0 86400) [0, 86400] [101]
        true true true "all" ∧
    load_adjustments_from_sqlite ⟨[⟨101, 2, -5⟩], [⟨101, 3, 100000⟩], []⟩ [0, 86400] [101]
      true true true "all" =
      load_adjustments_from_sqlite ⟨[], [], []⟩ [0, 86400] [101] true true true "all" :=
  ⟨(C7_range_exclusivity ⟨[⟨101, 2, -5⟩], [⟨101, 3, 100000⟩], []⟩ [0, 86400] [101]
      true true true "all" 0 86400 rfl rfl).1,
   (C7_range_exclusivity ⟨[⟨101, 2, -5⟩], [⟨101, 3, 100000⟩], []⟩ [0, 86400] [101]
      true true true "all" 0 86400 rfl rfl).2 (by decide)⟩

/-- C10: the volume multiplier is computed as `1.0 / ratio` with no
guard: for a retained split with nonzero ratio the step succeeds and the
reciprocal is a true inverse, while a retained split with ratio `0`,
when volume output is requested, aborts the step — and hence the whole
`load_adjustments` call — with the division-by-zero error instead of
returning schedules. -/
theorem C10_zero_ratio_division :
    (∀ (sp : Bool) (dates assets : List Int) (start : Int) (ps vs : Schedule)
        (r : AdjRecord) (ix : Nat),
      ¬ r.effDate < start → get_loc assets r.sid = some ix → ¬ r.ratio = 0 →
      (∃ out, splitStep sp true dates assets start (ps, vs) r = .ok out) ∧
        r.ratio * (1 / r.ratio) = 1) ∧
    (∀ (sp : Bool) (dates assets : List Int) (start : Int) (ps vs : Schedule)
        (r : AdjRecord) (ix : Nat),
      ¬ r.effDate < start → get_loc assets r.sid = some ix → r.ratio = 0 →
      splitStep sp true dates assets start (ps, vs) r = .error .zeroDivision) ∧
    (∀ (dates assets : List Int) (m dd : Bool) (t : String) (rec : AdjRecord)
        (d0 dl : Int) (ix : Nat),
      dates.head? = some d0 → dates.getLast? = some dl →
      ¬ rec.effDate < d0 → rec.effDate ≤ dl →
      get_loc assets rec.sid = some ix → rec.ratio = 0 →
      (t = "volume" ∨ t = "all") →
      load_adjustments_from_sqlite ⟨[rec], [], []⟩ dates assets true m dd t =
        .error .zeroDivision) := by
  refine ⟨?_, ?_, ?_⟩
  · intro sp dates assets start ps vs r ix h1 hloc h3
    constructor
    · simp only [splitStep, if_neg h1, hloc]
      rw [if_pos trivial, if_neg h3]
      exact ⟨_, rfl⟩
    · exact mul_one_div_cancel h3
  · intro sp dates assets start ps vs r ix h1 hloc h3
    simp only [splitStep, if_neg h1, hloc]
    rw [if_pos trivial, if_pos h3]
  · intro dates assets m dd t rec d0 dl ix hd hl h1 h2 hloc h0 ht
    have hv : (t == "price" || t == "volume" || t == "all") = true := by
      rcases ht with h | h <;> subst h <;> decide
    have hsv : (t == "all" || t == "volume") = true := by
      rcases ht with h | h <;> subst h <;> decide
    have hd0le : d0 ≤ rec.effDate := Int.not_lt.mp h1
    rw [load_adjustments_from_sqlite, if_pos hv]
    simp only [hd, hl]
    rw [hsv]
    rw [loadValidated]
    have hsid_mem : rec.sid ∈ assets := by
      rw [get_loc] at hloc
      have hany : assets.any (fun a => a == rec.sid) = true := by
        rw [← List.findIdx?_isSome, hloc]
        rfl
      obtain ⟨x, hx, hpx⟩ := List.any_eq_true.mp hany
      have hxeq : x = rec.sid := by simpa using hpx
      exact hxeq ▸ hx
    have hsids : get_sids_from_table [rec] d0 dl = [rec.sid] := by
      rw [get_sids_from_table]
      rw [List.filter_cons_of_pos (by simp [hd0le, h2])]
      simp
    simp only [eq_self_iff_true, if_true, hsids, adjustments_fetch]
    have hne : fetchCategory SQLITE_MAX_IN_STATEMENT [rec] [rec.sid] d0 dl assets ≠ [] := by
      intro hemp
      have htq : rec.sid ∈ assets.filter (fun a => decide (a ∈ [rec.sid])) := by
        rw [List.mem_filter]
        exact ⟨hsid_mem, by simp⟩
      have hflat : rec.sid ∈
          (chunksOf SQLITE_MAX_IN_STATEMENT
            (assets.filter (fun a => decide (a ∈ [rec.sid])))).flatten := by
        rw [chunksOf_flatten SQLITE_MAX_IN_STATEMENT (by norm_num [SQLITE_MAX_IN_STATEMENT])]
        exact htq
      obtain ⟨ch, hch, hmemch⟩ := List.mem_flatten.mp hflat
      rw [fetchCategory] at hemp
      have hcomp : adjQuery [rec] ch d0 dl = [] :=
        (List.flatten_eq_nil_iff.mp hemp) _ (List.mem_map_of_mem _ hch)
      have hrecmem : rec ∈ adjQuery [rec] ch d0 dl := by
        rw [adjQuery, List.mem_filter]
        refine ⟨by simp, ?_⟩
        simp [hmemch, hd0le, h2]
      rw [hcomp] at hrecmem
      simp at hrecmem
    obtain ⟨rfirst, rest, hfeq⟩ := List.exists_cons_of_ne_nil hne
    have hrfirst : rfirst = rec := by
      have hmem : rfirst ∈ fetchCategory SQLITE_MAX_IN_STATEMENT [rec] [rec.sid] d0 dl assets := by
        rw [hfeq]
        exact List.mem_cons_self _ _
      have := (mem_fetchCategory _ _ _ _ _ _ _ hmem).1
      simpa using this
    rw [hrfirst] at hfeq
    rw [hfeq]
    have hstep : ∀ sp : Bool, splitStep sp true dates assets d0 ([], []) rec =
        .error .zeroDivision := by
      intro sp
      simp only [splitStep, if_neg h1, hloc]
      rw [if_pos trivial, if_pos h0]
    rw [assemble, runLoop, hstep]

/-- C10 witness: a ratio-2 split step succeeds with a true reciprocal; a
ratio-0 split step, and a whole volume-scope load over a database whose
only split has ratio 0, fail with the division-by-zero error. -/
theorem C10_zero_ratio_division_witness :
    ((∃ out, splitStep true true [0, 86400] [101] 0 ([], []) ⟨101, 2, 86400⟩ = .ok out) ∧
      ((⟨101, 2, 86400⟩ : AdjRecord).ratio * (1 / (⟨101, 2, 86400⟩ : AdjRecord).ratio) = 1)) ∧
    splitStep true true [0, 86400] [101] 0 ([], []) ⟨101, 0, 86400⟩ = .error .zeroDivision ∧
    load_adjustments_from_sqlite ⟨[⟨101, 0, 86400⟩], [], []⟩ [0, 86400] [101] true true true
      "volume" = .error .zeroDivision :=
  ⟨C10_zero_ratio_division.1 true [0, 86400] [101] 0 [] [] ⟨101, 2, 86400⟩ 0
      (by decide) (by decide) (by norm_num),
   C10_zero_ratio_division.2.1 true [0, 86400] [101] 0 [] [] ⟨101, 0, 86400⟩ 0
      (by decide) (by decide) rfl,
   C10_zero_ratio_division.2.2 [0, 86400] [101] true true "volume" ⟨101, 0, 86400⟩ 0 86400 0
      rfl rfl (by decide) (by decide) (by decide) rfl (Or.inl rfl)⟩

end Zipline
